import Mathlib

/-!
Verification development for the leftover-detection-and-removal engine of a
Windows application uninstaller.

The definitions below are a shallow embedding of `src/core/scanner.py`
(dataclass `Leftover`, class `LeftoverScanner`) and `src/core/cleaner.py`
(dataclass `CleanResult`, class `Cleaner`).  Pure Python functions become Lean
functions; the filesystem and the Windows registry become an explicit
`SysState` value threaded through the deletion strategies, and OS success or
failure of individual delete and open calls is supplied by a `RegEnv` oracle.
Logging and the backup step are omitted: they never influence the returned
`CleanResult`, the state, or the order of delete-strategy calls.

String operations are modelled on the underlying character lists so that all
concrete runs reduce inside the kernel.
-/

/-! ## String helpers (character-list based, kernel reducible) -/

/-- Python `str.lower` restricted to ASCII, which covers every string the
claims use.  Python lowercases some non-ASCII code points that
`Char.toLower` leaves unchanged; no path or program name in the claims
contains such a character. -/
def toLowerStr (s : String) : String := ⟨s.data.map Char.toLower⟩

/-- Python slicing `s[n:]` by code points. -/
def strDrop (s : String) (n : Nat) : String := ⟨s.data.drop n⟩

/-- Python `s.startswith(pre)`. -/
def strStartsWith (s pre : String) : Bool := pre.data.isPrefixOf s.data

/-- Bool test that `pat` occurs as a contiguous run inside `l`
(Python `pat in s` on strings). -/
def listHasInfix (pat : List Char) : List Char → Bool
  | [] => pat.isPrefixOf []
  | c :: rest => pat.isPrefixOf (c :: rest) || listHasInfix pat rest

/-- Python substring containment `pat in s`. -/
def strContains (s pat : String) : Bool := listHasInfix pat.data s.data

/-! ## Data model: Leftover and CleanResult (scanner.py / cleaner.py) -/

/-- `Leftover` dataclass of scanner.py.  `lastModified` stands for the
`datetime` field as a plain timestamp number. -/
structure Leftover where
  type : String
  path : String
  size : Option Nat := none
  lastModified : Option Nat := none
  description : Option String := none
deriving DecidableEq

/-- `CleanResult` dataclass of cleaner.py. -/
structure CleanResult where
  total_items : Nat
  deleted_items : Nat
  failed_items : Nat
  errors : List (String × String)
  size_freed : Nat := 0
deriving DecidableEq

/-! ## `_format_size` and `Leftover.__str__`

Python formats with `f"{x:.1f}"` on a float obtained by repeatedly dividing
by `1024.0`.  Every such float is the exact rational `n / 1024^j` (dividing a
double by 1024 only shifts the exponent), and CPython `%.1f` rounds that exact
value half-to-even.  We therefore carry the exact numerator and denominator
and round half-to-even on them. -/

/-- `%.1f` of the exact nonnegative rational `n / d` (`d > 0`),
rounding half-to-even exactly as CPython does on the underlying double. -/
def fmtOneDecimal (n d : Nat) : String :=
  let t := 10 * n
  let q := t / d
  let r := t % d
  let rounded :=
    if 2 * r < d then q
    else if d < 2 * r then q + 1
    else if q % 2 = 0 then q else q + 1
  toString (rounded / 10) ++ "." ++ toString (rounded % 10)

/-- The unit loop of `_format_size`: value is the exact rational `n / d`. -/
def formatSizeAux : List String → Nat → Nat → String
  | [], n, d => fmtOneDecimal n d ++ " TB"
  | u :: us, n, d =>
      if n < 1024 * d then fmtOneDecimal n d ++ " " ++ u
      else formatSizeAux us n (1024 * d)

/-- `Leftover._format_size` / `Cleaner._format_size` of the source. -/
def formatSize (sizeBytes : Nat) : String :=
  formatSizeAux ["B", "KB", "MB", "GB"] sizeBytes 1

/-- `Leftover.__str__` of scanner.py.  Note that only the `file` branch
attaches a size suffix, and only when `self.size` is truthy (not `None` and
not `0`); the `directory` branch prints no size at all. -/
def leftoverStr (l : Leftover) : String :=
  if l.type = "file" then
    "[File] " ++ l.path ++
      (match l.size with
       | some n => if n ≠ 0 then " (" ++ formatSize n ++ ")" else ""
       | none => "")
  else if l.type = "directory" then "[Dir]  " ++ l.path
  else if l.type = "registry" then "[Reg]  " ++ l.path
  else if l.type = "shortcut" then "[Link] " ++ l.path
  else "[" ++ l.type ++ "] " ++ l.path

/-! ## Pattern generation (`LeftoverScanner._generate_search_patterns`)

The regular expression `\s+\d+(\.\d+)*` has pairwise disjoint character
classes, so its greedy match is plain maximal munch; `re.sub` replaces
leftmost non-overlapping matches.  The `Nat` argument of the loops below is a
fuel bound (each outer step consumes at least one character, so the length of
the input is always enough); it only serves to make the recursion structural
and kernel reducible. -/

/-- Python regex `\s` on ASCII text. -/
def pyIsSpace (c : Char) : Bool :=
  c = ' ' || c = '\t' || c = '\n' || c = '\r' || c = '\x0B' || c = '\x0C'

/-- Greedily consume `(\.\d+)*` at the head of the list. -/
def matchDotGroups : Nat → List Char → List Char
  | 0, cs => cs
  | fuel + 1, cs =>
      match cs with
      | '.' :: rest =>
          let ds := rest.takeWhile Char.isDigit
          if ds.isEmpty then cs
          else matchDotGroups fuel (rest.drop ds.length)
      | _ => cs

/-- Try to match `\s+\d+(\.\d+)*` at the head of the list; on success return
the remainder after the match. -/
def matchVersionTail (cs : List Char) : Option (List Char) :=
  let ws := cs.takeWhile pyIsSpace
  if ws.isEmpty then none
  else
    let afterWs := cs.drop ws.length
    let ds := afterWs.takeWhile Char.isDigit
    if ds.isEmpty then none
    else some (matchDotGroups cs.length (afterWs.drop ds.length))

/-- Leftmost non-overlapping replacement of `\s+\d+(\.\d+)*` by the empty
string, scanning left to right. -/
def stripVersionsGo : Nat → List Char → List Char
  | 0, cs => cs
  | fuel + 1, cs =>
      match cs with
      | [] => []
      | c :: rest =>
          match matchVersionTail (c :: rest) with
          | some after => stripVersionsGo fuel after
          | none => c :: stripVersionsGo fuel rest

/-- `re.sub(r'\s+\d+(\.\d+)*', '', s)`. -/
def stripVersions (s : String) : String := ⟨stripVersionsGo s.data.length s.data⟩

/-- `InstalledProgram` dataclass of registry.py, restricted to the two fields
`_generate_search_patterns` reads; the remaining registry-sourced fields
(version, install location, uninstall command, ...) never reach the scanner
or cleaner core. -/
structure InstalledProgram where
  name : String
  publisher : Option String := none
deriving DecidableEq

/-- `LeftoverScanner._generate_search_patterns`.  Python collects the
patterns in a list and then builds `list(set(p for p in patterns if
len(p) >= 3))`; the result is a set, so we keep the filtered list and
deduplicate, and claims about it only use membership and emptiness. -/
def generateSearchPatterns (p : InstalledProgram) : List String :=
  let namePats : List String :=
    if p.name ≠ "" then
      let lower := toLowerStr p.name
      let noVersion := toLowerStr (stripVersions p.name)
      [lower] ++ (if noVersion ≠ lower then [noVersion] else [])
    else []
  let pubPats : List String :=
    match p.publisher with
    | some pub => if pub ≠ "" then [toLowerStr pub] else []
    | none => []
  ((namePats ++ pubPats).filter (fun q => 3 ≤ q.length)).dedup

/-! ## Filesystem trees and the scanner file pass
(`LeftoverScanner._scan_directory`) -/

/-- A filesystem entry: a file with a size and an mtime, or a directory with
children.  The model assumes `stat` succeeds on every file (the Python code
falls back to a size-less leftover only when `stat` raises). -/
inductive FSEntry where
  | file (name : String) (size : Nat) (mtime : Nat)
  | dir (name : String) (children : List FSEntry)

mutual

/-- `LeftoverScanner._get_directory_size` for a single entry: total size of
all files in the subtree (`rglob` is unrestricted by the scan depth). -/
def dirTotalSize : FSEntry → Nat
  | .file _ sz _ => sz
  | .dir _ cs => sizeSum cs
termination_by e => sizeOf e

/-- Total size of the files below a list of entries. -/
def sizeSum : List FSEntry → Nat
  | [] => 0
  | e :: es => dirTotalSize e + sizeSum es
termination_by l => sizeOf l

end

mutual

/-- Number of entries in the subtree rooted at `e`, the entry itself
included (`rglob('*')` enumerates files and directories at every depth). -/
def entryCount : FSEntry → Nat
  | .file _ _ _ => 1
  | .dir _ cs => 1 + countSum cs
termination_by e => sizeOf e

/-- `LeftoverScanner._count_items` of a directory with children `cs`. -/
def countSum : List FSEntry → Nat
  | [] => 0
  | e :: es => entryCount e + countSum es
termination_by l => sizeOf l

end

/-- Name of an entry. -/
def entryName : FSEntry → String
  | .file nm _ _ => nm
  | .dir nm _ => nm

mutual

/-- The body of the `for item in directory.iterdir()` loop of
`_scan_directory` for one entry.  A matched file is recorded; a matched
directory is recorded as one atomic unit and, because of the `continue`,
never recursed into; an unmatched directory is recursed into only while
`current_depth < max_depth`. -/
def scanEntry (pats : List String) (maxD curD : Nat) (parent : String) :
    FSEntry → List Leftover
  | .file nm sz mt =>
      if pats.any (fun p => strContains (toLowerStr nm) p) then
        [{ type := "file", path := parent ++ "\\" ++ nm, size := some sz,
           lastModified := some mt }]
      else []
  | .dir nm cs =>
      if pats.any (fun p => strContains (toLowerStr nm) p) then
        [{ type := "directory", path := parent ++ "\\" ++ nm,
           size := some (sizeSum cs),
           description :=
             some ("Directory with " ++ toString (countSum cs) ++ " items") }]
      else if curD < maxD then
        scanDirectory pats maxD (curD + 1) (parent ++ "\\" ++ nm) cs
      else []
termination_by e => (sizeOf e, 0)

/-- `LeftoverScanner._scan_directory` on a directory whose children are `cs`:
the depth guard at function entry, then the loop over the children. -/
def scanDirectory (pats : List String) (maxD curD : Nat) (parent : String)
    (cs : List FSEntry) : List Leftover :=
  if curD > maxD then [] else scanList pats maxD curD parent cs
termination_by (sizeOf cs, 1)

/-- The `for` loop of `_scan_directory`, appending the leftovers recorded
for each child in order. -/
def scanList (pats : List String) (maxD curD : Nat) (parent : String) :
    List FSEntry → List Leftover
  | [] => []
  | e :: es =>
      scanEntry pats maxD curD parent e ++ scanList pats maxD curD parent es
termination_by l => (sizeOf l, 0)

end

/-! ## Registry constants and `Cleaner._parse_registry_path` -/

def HKEY_CLASSES_ROOT : Nat := 0x80000000
def HKEY_CURRENT_USER : Nat := 0x80000001
def HKEY_LOCAL_MACHINE : Nat := 0x80000002
def HKEY_USERS : Nat := 0x80000003
def HKEY_CURRENT_CONFIG : Nat := 0x80000005
def KEY_ALL_ACCESS : Nat := 0xF003F
def KEY_WOW64_64KEY : Nat := 0x0100
def KEY_WOW64_32KEY : Nat := 0x0200

/-- The `hive_map` of `_parse_registry_path` in its Python insertion order
(dict iteration preserves it). -/
def hiveMap : List (String × Nat) :=
  [("HKEY_LOCAL_MACHINE", HKEY_LOCAL_MACHINE), ("HKLM", HKEY_LOCAL_MACHINE),
   ("HKEY_CURRENT_USER", HKEY_CURRENT_USER), ("HKCU", HKEY_CURRENT_USER),
   ("HKEY_CLASSES_ROOT", HKEY_CLASSES_ROOT), ("HKCR", HKEY_CLASSES_ROOT),
   ("HKEY_USERS", HKEY_USERS), ("HKU", HKEY_USERS),
   ("HKEY_CURRENT_CONFIG", HKEY_CURRENT_CONFIG), ("HKCC", HKEY_CURRENT_CONFIG)]

/-- `Cleaner._parse_registry_path`: the first table entry whose name followed
by a backslash prefixes the path wins; `None, None` becomes `none`. -/
def parseRegistryPath (keyPath : String) : Option (Nat × String) :=
  match hiveMap.find? (fun pr => strStartsWith keyPath (pr.1 ++ "\\")) with
  | some pr => some (pr.2, strDrop keyPath (pr.1.length + 1))
  | none => none

/-! ## Cleaner state, environment and per-kind delete strategies -/

/-- The mutable world the cleaner acts on: the set of existing filesystem
paths (`os.path.exists`) and the set of existing registry keys as
(hive, subpath) pairs.  Both are lists read with set semantics; deletions
remove every occurrence. -/
structure SysState where
  fsPaths : List String
  regKeys : List (Nat × String)
deriving DecidableEq

/-- Deterministic oracle for the OS calls whose success the code cannot
control: whether `OpenKey`, `DeleteKeyEx`/`DeleteKey` on a given hive, path
and access flag succeed, and whether `os.remove`/`shutil.rmtree` succeed.
A false `fsDeleteOk` models the `PermissionError` branch. -/
structure RegEnv where
  openOk : Nat → String → Nat → Bool
  deleteOk : Nat → String → Nat → Bool
  fsDeleteOk : String → Bool

/-- Outcome of one delete strategy call.  `loops` marks the point where the
Python code re-enumerates the same failed subkey forever (see
`deleteRecFuel`); `outOfFuel` marks exhaustion of the structural fuel of the
model, which the chosen fuel bound makes unreachable. -/
inductive DOutcome where
  | ok
  | fail (msg : String)
  | loops
  | outOfFuel
deriving DecidableEq

/-- The access flags `_delete_registry_key_recursive` tries for `OpenKey`. -/
def regOpenAccessFlags : List Nat :=
  [KEY_ALL_ACCESS ||| KEY_WOW64_64KEY, KEY_ALL_ACCESS ||| KEY_WOW64_32KEY,
   KEY_ALL_ACCESS]

/-- The deletion attempts: `DeleteKeyEx` under the three access flags, then
the last-resort plain `DeleteKey`, modelled as flag `0`. -/
def regDeleteAccessFlags : List Nat :=
  [KEY_ALL_ACCESS ||| KEY_WOW64_64KEY, KEY_ALL_ACCESS ||| KEY_WOW64_32KEY,
   KEY_ALL_ACCESS, 0]

/-- The key can be opened: it exists and some access flag succeeds. -/
def openSucceeds (env : RegEnv) (keys : List (Nat × String)) (hive : Nat)
    (path : String) : Bool :=
  keys.contains (hive, path) && regOpenAccessFlags.any (fun a => env.openOk hive path a)

/-- Some deletion attempt on the key succeeds. -/
def deleteSucceeds (env : RegEnv) (hive : Nat) (path : String) : Bool :=
  regDeleteAccessFlags.any (fun a => env.deleteOk hive path a)

/-- `sub` names a direct registry child of `parent` (what `EnumKey` on
`parent` can return, as a full path). -/
def isDirectSubkey (parent sub : String) : Bool :=
  strStartsWith sub (parent ++ "\\") && decide (parent.length + 1 < sub.length)
    && !((sub.data.drop (parent.length + 1)).contains '\\')

/-- `EnumKey(key, 0)`: the first direct subkey of `path` in registry order,
modelled as list order, returned as its full (hive, path) pair. -/
def firstSubkey (keys : List (Nat × String)) (hive : Nat) (path : String) :
    Option (Nat × String) :=
  keys.find? (fun k => k.1 == hive && isDirectSubkey path k.2)

/-- `Cleaner._delete_registry_key_recursive`.

The subkey loop of the Python code always asks for `EnumKey(key, 0)`, so
after a failed subkey deletion that removed nothing it re-receives the same
subkey and repeats the identical call forever; the model detects that
no-progress situation (deletions only ever remove keys, so an unchanged key
count means an unchanged state under the deterministic oracle) and returns
`loops`.  A failed subkey deletion that did remove descendants re-enters the
loop, exactly like the Python code, via a recursive call on the same path:
the open is deterministic and the key still exists, so re-running the whole
function is the same as continuing the loop.  The fuel only bounds this
recursion structurally; `(|keys|+1)^2` steps are more than any run can use,
because every recursive call either shrinks the key list or moves to a
strictly deeper existing key. -/
def deleteRecFuel (env : RegEnv) :
    Nat → List (Nat × String) → Nat → String → DOutcome × List (Nat × String)
  | 0, keys, _, _ => (DOutcome.outOfFuel, keys)
  | fuel + 1, keys, hive, path =>
      if openSucceeds env keys hive path then
        match firstSubkey keys hive path with
        | some sub =>
            match deleteRecFuel env fuel keys hive sub.2 with
            | (DOutcome.loops, keys2) => (DOutcome.loops, keys2)
            | (DOutcome.outOfFuel, keys2) => (DOutcome.outOfFuel, keys2)
            | (DOutcome.ok, keys2) =>
                if keys2.length < keys.length then
                  deleteRecFuel env fuel keys2 hive path
                else (DOutcome.loops, keys2)
            | (DOutcome.fail _, keys2) =>
                if keys2.length < keys.length then
                  deleteRecFuel env fuel keys2 hive path
                else (DOutcome.loops, keys2)
        | none =>
            if deleteSucceeds env hive path then
              (DOutcome.ok, keys.filter (fun k => !(k.1 == hive && k.2 == path)))
            else (DOutcome.fail "Could not delete registry key", keys)
      else
        (DOutcome.fail "Could not open registry key with any access level", keys)

/-- `Cleaner._delete_registry_key`: parse, probe existence (a missing key is
success — already clean), then recursive deletion.  The probe is modelled as
reporting exactly whether the key exists. -/
def deleteRegistryKey (env : RegEnv) (s : SysState) (keyPath : String) :
    DOutcome × SysState :=
  match parseRegistryPath keyPath with
  | none => (DOutcome.fail "Invalid registry path", s)
  | some (hive, sub) =>
      if (hive, sub) ∈ s.regKeys then
        let r := deleteRecFuel env ((s.regKeys.length + 1) * (s.regKeys.length + 1))
          s.regKeys hive sub
        (r.1, { s with regKeys := r.2 })
      else (DOutcome.ok, s)

/-- `Cleaner._delete_file`: an absent path is success ("already deleted");
otherwise `os.remove`, whose failure is the `PermissionError` branch.  The
Python error message embeds the exception text after "Permission denied:";
no claim inspects the suffix, so the model keeps the constant prefix. -/
def deleteFile (env : RegEnv) (s : SysState) (path : String) :
    DOutcome × SysState :=
  if path ∈ s.fsPaths then
    if env.fsDeleteOk path then
      (DOutcome.ok, { s with fsPaths := s.fsPaths.filter (fun q => !(q == path)) })
    else (DOutcome.fail "Permission denied", s)
  else (DOutcome.ok, s)

/-- `Cleaner._delete_directory`: absent is success; `shutil.rmtree` removes
the directory and everything below it. -/
def deleteDirectory (env : RegEnv) (s : SysState) (path : String) :
    DOutcome × SysState :=
  if path ∈ s.fsPaths then
    if env.fsDeleteOk path then
      (DOutcome.ok,
       { s with fsPaths :=
          s.fsPaths.filter (fun q => !(q == path || strStartsWith q (path ++ "\\"))) })
    else (DOutcome.fail "Permission denied", s)
  else (DOutcome.ok, s)

/-- `Cleaner._delete_item`: dispatch on the `type` string.  The final branch
is the "Unknown leftover type" error of the source. -/
def deleteItem (env : RegEnv) (s : SysState) (l : Leftover) :
    DOutcome × SysState :=
  if l.type = "file" then deleteFile env s l.path
  else if l.type = "directory" then deleteDirectory env s l.path
  else if l.type = "registry" then deleteRegistryKey env s l.path
  else if l.type = "shortcut" then deleteFile env s l.path
  else (DOutcome.fail ("Unknown leftover type: " ++ l.type), s)

/-- `Cleaner._group_by_type` followed by the fixed iteration order
`['shortcut', 'file', 'directory', 'registry']` of `clean`: grouping keeps
the original order inside each type, and only these four groups are ever
visited, so the items processed are exactly these four filters in
sequence. -/
def groupOrdered (L : List Leftover) : List Leftover :=
  L.filter (fun l => l.type == "shortcut") ++ L.filter (fun l => l.type == "file")
    ++ L.filter (fun l => l.type == "directory")
    ++ L.filter (fun l => l.type == "registry")

/-- Python `if leftover.size: result.size_freed += leftover.size`: `None`
and `0` are falsy and contribute nothing, so the truthiness test is the same
as adding this value. -/
def sizeVal (l : Leftover) : Nat :=
  match l.size with
  | some n => n
  | none => 0

/-- The accumulation loop of `Cleaner.clean` over the ordered items.  The
third component records every delete-strategy call issued with its outcome,
in order; a `loops` or `outOfFuel` outcome means the Python call never
returns, so no `CleanResult` is produced (`none`). -/
def cleanGo (env : RegEnv) :
    CleanResult → SysState → List (Leftover × DOutcome) → List Leftover →
      Option CleanResult × SysState × List (Leftover × DOutcome)
  | res, s, calls, [] => (some res, s, calls)
  | res, s, calls, l :: ls =>
      match deleteItem env s l with
      | (DOutcome.ok, s2) =>
          cleanGo env
            { res with deleted_items := res.deleted_items + 1,
                       size_freed := res.size_freed + sizeVal l }
            s2 (calls ++ [(l, DOutcome.ok)]) ls
      | (DOutcome.fail msg, s2) =>
          cleanGo env
            { res with failed_items := res.failed_items + 1,
                       errors := res.errors ++ [(l.path, msg)] }
            s2 (calls ++ [(l, DOutcome.fail msg)]) ls
      | (DOutcome.loops, s2) => (none, s2, calls ++ [(l, DOutcome.loops)])
      | (DOutcome.outOfFuel, s2) => (none, s2, calls ++ [(l, DOutcome.outOfFuel)])

/-- `Cleaner.clean` (with `create_backup` off; backups change no state and no
counter). -/
def clean (env : RegEnv) (s : SysState) (L : List Leftover) :
    Option CleanResult × SysState × List (Leftover × DOutcome) :=
  cleanGo env
    { total_items := L.length, deleted_items := 0, failed_items := 0,
      errors := [], size_freed := 0 }
    s [] (groupOrdered L)

/-- Position of a type string in the fixed deletion order of `clean`. -/
def rank (t : String) : Nat :=
  if t = "shortcut" then 0
  else if t = "file" then 1
  else if t = "directory" then 2
  else if t = "registry" then 3
  else 4

/-- The four kinds `_delete_item` knows a strategy for. -/
def knownType (l : Leftover) : Prop :=
  l.type = "file" ∨ l.type = "directory" ∨ l.type = "registry" ∨ l.type = "shortcut"

/-- The `(path, error)` pairs of the failed calls of a trace, in order. -/
def failPairs (cs : List (Leftover × DOutcome)) : List (String × String) :=
  cs.filterMap (fun c =>
    match c.2 with
    | DOutcome.fail m => some (c.1.path, m)
    | _ => none)

/-- Total of the recorded sizes of the successfully deleted items of a
trace. -/
def okSizes (cs : List (Leftover × DOutcome)) : Nat :=
  (cs.filterMap (fun c =>
    match c.2 with
    | DOutcome.ok => some (sizeVal c.1)
    | _ => none)).sum

/-- The item is gone from the state (and, for a registry item, its path
parses): exactly what makes each delete strategy return success without
touching the state. -/
def settled (s : SysState) (l : Leftover) : Prop :=
  (l.type = "registry" →
    ∃ hive sub, parseRegistryPath l.path = some (hive, sub) ∧ (hive, sub) ∉ s.regKeys) ∧
  (l.type ≠ "registry" → l.path ∉ s.fsPaths)

/-- `s2` holds at most what `s1` holds (deletions only remove). -/
def SubState (s2 s1 : SysState) : Prop :=
  s2.fsPaths ⊆ s1.fsPaths ∧ s2.regKeys ⊆ s1.regKeys

/-! ## Concrete fixtures used by the claim theorems and witnesses -/

/-- Oracle under which every OS call succeeds. -/
def envAllOk : RegEnv :=
  { openOk := fun _ _ _ => true, deleteOk := fun _ _ _ => true,
    fsDeleteOk := fun _ => true }

/-- Oracle under which registry keys open fine but no deletion attempt ever
succeeds (for example, an access-control denial on every view). -/
def envNoRegDelete : RegEnv :=
  { openOk := fun _ _ _ => true, deleteOk := fun _ _ _ => false,
    fsDeleteOk := fun _ => true }

def fileItemX : Leftover := { type := "file", path := "C:\\Temp\\app.txt", size := some 10 }

def fileItemY : Leftover := { type := "file", path := "C:\\a", size := some 2048 }

def dirItemX : Leftover := { type := "directory", path := "C:\\X", size := some 2048 }

def linkItemX : Leftover := { type := "shortcut", path := "C:\\U\\a.lnk", size := some 7 }

def serviceItemX : Leftover := { type := "service", path := "MyAppSvc" }

def regItemX : Leftover := { type := "registry", path := "HKLM\\Software\\Bad" }

/-- A registry with a key whose only subkey cannot be deleted. -/
def stateWithStuckKey : SysState :=
  { fsPaths := [],
    regKeys := [(HKEY_LOCAL_MACHINE, "Software\\Bad"),
                (HKEY_LOCAL_MACHINE, "Software\\Bad\\Sub")] }

/-! ## Basic lemmas about the state order and the delete strategies -/

theorem subState_refl (s : SysState) : SubState s s :=
  ⟨fun _ h => h, fun _ h => h⟩

theorem subState_trans {s3 s2 s1 : SysState} (h32 : SubState s3 s2)
    (h21 : SubState s2 s1) : SubState s3 s1 :=
  ⟨fun _ h => h21.1 (h32.1 h), fun _ h => h21.2 (h32.2 h)⟩

theorem settled_mono {s2 s1 : SysState} {l : Leftover} (hsub : SubState s2 s1)
    (h : settled s1 l) : settled s2 l := by
  refine ⟨fun hreg => ?_, fun hnreg => ?_⟩
  · obtain ⟨hive, sub, hp, hmem⟩ := h.1 hreg
    exact ⟨hive, sub, hp, fun hin => hmem (hsub.2 hin)⟩
  · exact fun hin => h.2 hnreg (hsub.1 hin)

theorem deleteRecFuel_subset (env : RegEnv) :
    ∀ fuel keys hive path, (deleteRecFuel env fuel keys hive path).2 ⊆ keys := by
  intro fuel
  induction fuel with
  | zero =>
      intro keys hive path
      simp [deleteRecFuel]
  | succ fuel ih =>
      intro keys hive path
      simp only [deleteRecFuel]
      split
      · split
        · next sub hfind =>
            split
            · next keys2 heq =>
                have h1 := ih keys hive sub.2
                rw [heq] at h1
                simpa using h1
            · next keys2 heq =>
                have h1 := ih keys hive sub.2
                rw [heq] at h1
                simpa using h1
            · next keys2 heq =>
                have h1 := ih keys hive sub.2
                rw [heq] at h1
                split
                · exact (ih keys2 hive path).trans (by simpa using h1)
                · simpa using h1
            · next m keys2 heq =>
                have h1 := ih keys hive sub.2
                rw [heq] at h1
                split
                · exact (ih keys2 hive path).trans (by simpa using h1)
                · simpa using h1
        · split
          · simp
          · simp
      · simp

theorem deleteRecFuel_ok_not_mem (env : RegEnv) :
    ∀ fuel keys hive path keys2,
      deleteRecFuel env fuel keys hive path = (DOutcome.ok, keys2) →
      (hive, path) ∉ keys2 := by
  intro fuel
  induction fuel with
  | zero =>
      intro keys hive path keys2 h
      simp [deleteRecFuel] at h
  | succ fuel ih =>
      intro keys hive path keys2 h
      simp only [deleteRecFuel] at h
      split at h
      · split at h
        · next sub hfind =>
            split at h
            · simp at h
            · simp at h
            · next keys3 heq =>
                split at h
                · exact ih _ _ _ _ h
                · simp at h
            · next m keys3 heq =>
                split at h
                · exact ih _ _ _ _ h
                · simp at h
        · next hfind =>
            split at h
            · rw [Prod.mk.injEq] at h
              obtain ⟨-, h2⟩ := h
              subst h2
              intro hmem
              have hpred := (List.mem_filter.mp hmem).2
              simp at hpred
            · simp at h
      · simp at h

theorem deleteFile_subState (env : RegEnv) (s : SysState) (p : String) :
    SubState (deleteFile env s p).2 s := by
  unfold deleteFile
  split
  · split
    · exact ⟨by simp, fun _ h => h⟩
    · exact subState_refl s
  · exact subState_refl s

theorem deleteDirectory_subState (env : RegEnv) (s : SysState) (p : String) :
    SubState (deleteDirectory env s p).2 s := by
  unfold deleteDirectory
  split
  · split
    · exact ⟨by simp, fun _ h => h⟩
    · exact subState_refl s
  · exact subState_refl s

theorem deleteRegistryKey_subState (env : RegEnv) (s : SysState) (p : String) :
    SubState (deleteRegistryKey env s p).2 s := by
  unfold deleteRegistryKey
  split
  · exact subState_refl s
  · next hive sub hp =>
      split
      · refine ⟨fun _ h => h, ?_⟩
        simpa using deleteRecFuel_subset env _ s.regKeys hive sub
      · exact subState_refl s

theorem deleteItem_subState (env : RegEnv) (s : SysState) (l : Leftover) :
    SubState (deleteItem env s l).2 s := by
  unfold deleteItem
  split
  · exact deleteFile_subState env s l.path
  · split
    · exact deleteDirectory_subState env s l.path
    · split
      · exact deleteRegistryKey_subState env s l.path
      · split
        · exact deleteFile_subState env s l.path
        · exact subState_refl s

theorem deleteFile_ok_removed (env : RegEnv) (s s2 : SysState) (p : String)
    (h : deleteFile env s p = (DOutcome.ok, s2)) : p ∉ s2.fsPaths := by
  unfold deleteFile at h
  split at h
  · split at h
    · rw [Prod.mk.injEq] at h
      obtain ⟨-, h2⟩ := h
      subst h2
      intro hmem
      have hpred := (List.mem_filter.mp hmem).2
      simp at hpred
    · simp at h
  · next hni =>
      rw [Prod.mk.injEq] at h
      obtain ⟨-, h2⟩ := h
      subst h2
      exact hni

theorem deleteDirectory_ok_removed (env : RegEnv) (s s2 : SysState) (p : String)
    (h : deleteDirectory env s p = (DOutcome.ok, s2)) : p ∉ s2.fsPaths := by
  unfold deleteDirectory at h
  split at h
  · split at h
    · rw [Prod.mk.injEq] at h
      obtain ⟨-, h2⟩ := h
      subst h2
      intro hmem
      have hpred := (List.mem_filter.mp hmem).2
      simp at hpred
    · simp at h
  · next hni =>
      rw [Prod.mk.injEq] at h
      obtain ⟨-, h2⟩ := h
      subst h2
      exact hni

theorem deleteRegistryKey_ok_parsed (env : RegEnv) (s s2 : SysState) (p : String)
    (h : deleteRegistryKey env s p = (DOutcome.ok, s2)) :
    ∃ hive sub, parseRegistryPath p = some (hive, sub) ∧ (hive, sub) ∉ s2.regKeys := by
  unfold deleteRegistryKey at h
  split at h
  · simp at h
  · next hive sub hp =>
      split at h
      · next hmem =>
          dsimp only at h
          rw [Prod.mk.injEq] at h
          obtain ⟨h1, h2⟩ := h
          refine ⟨hive, sub, hp, ?_⟩
          have hfull :
              deleteRecFuel env ((s.regKeys.length + 1) * (s.regKeys.length + 1))
                  s.regKeys hive sub =
                (DOutcome.ok,
                  (deleteRecFuel env ((s.regKeys.length + 1) * (s.regKeys.length + 1))
                      s.regKeys hive sub).2) := by
            rw [← h1]
          have hnm := deleteRecFuel_ok_not_mem env _ s.regKeys hive sub _ hfull
          subst h2
          exact hnm
      · next hnm =>
          rw [Prod.mk.injEq] at h
          obtain ⟨-, h2⟩ := h
          subst h2
          exact ⟨hive, sub, hp, hnm⟩

theorem deleteItem_ok_settled (env : RegEnv) (s s2 : SysState) (l : Leftover)
    (hk : knownType l) (h : deleteItem env s l = (DOutcome.ok, s2)) :
    settled s2 l := by
  rcases hk with ht | ht | ht | ht
  · have h2 : deleteFile env s l.path = (DOutcome.ok, s2) := by
      simpa [deleteItem, ht] using h
    exact ⟨fun hreg => by simp [ht] at hreg,
           fun _ => deleteFile_ok_removed env s s2 l.path h2⟩
  · have h2 : deleteDirectory env s l.path = (DOutcome.ok, s2) := by
      simpa [deleteItem, ht] using h
    exact ⟨fun hreg => by simp [ht] at hreg,
           fun _ => deleteDirectory_ok_removed env s s2 l.path h2⟩
  · have h2 : deleteRegistryKey env s l.path = (DOutcome.ok, s2) := by
      simpa [deleteItem, ht] using h
    exact ⟨fun _ => deleteRegistryKey_ok_parsed env s s2 l.path h2,
           fun hne => absurd ht hne⟩
  · have h2 : deleteFile env s l.path = (DOutcome.ok, s2) := by
      simpa [deleteItem, ht] using h
    exact ⟨fun hreg => by simp [ht] at hreg,
           fun _ => deleteFile_ok_removed env s s2 l.path h2⟩

theorem settled_deleteItem_ok (env : RegEnv) (s : SysState) (l : Leftover)
    (hk : knownType l) (hs : settled s l) :
    deleteItem env s l = (DOutcome.ok, s) := by
  rcases hk with ht | ht | ht | ht
  · have hnm : l.path ∉ s.fsPaths := hs.2 (by simp [ht])
    simp [deleteItem, ht, deleteFile, hnm]
  · have hnm : l.path ∉ s.fsPaths := hs.2 (by simp [ht])
    simp [deleteItem, ht, deleteDirectory, hnm]
  · obtain ⟨hive, sub, hp, hnm⟩ := hs.1 ht
    simp [deleteItem, ht, deleteRegistryKey, hp, hnm]
  · have hnm : l.path ∉ s.fsPaths := hs.2 (by simp [ht])
    simp [deleteItem, ht, deleteFile, hnm]

/-! ## Lemmas about the accumulation loop of `clean` -/

theorem cleanGo_complete (env : RegEnv) :
    ∀ items res s calls r s2 c2,
      cleanGo env res s calls items = (some r, s2, c2) →
      ∃ tr, c2 = calls ++ tr ∧ tr.map Prod.fst = items ∧
        r.total_items = res.total_items ∧
        r.deleted_items =
          res.deleted_items + (tr.filter (fun c => c.2 == DOutcome.ok)).length ∧
        r.failed_items = res.failed_items + (failPairs tr).length ∧
        r.errors = res.errors ++ failPairs tr ∧
        r.size_freed = res.size_freed + okSizes tr ∧
        ∀ c ∈ tr, c.2 = DOutcome.ok ∨ ∃ m, c.2 = DOutcome.fail m := by
  intro items
  induction items with
  | nil =>
      intro res s calls r s2 c2 h
      simp only [cleanGo, Prod.mk.injEq, Option.some.injEq] at h
      obtain ⟨h1, h2, h3⟩ := h
      subst h1
      subst h3
      exact ⟨[], by simp, by simp, rfl, by simp [failPairs], by simp [failPairs],
             by simp [failPairs], by simp [okSizes], by simp⟩
  | cons l ls ih =>
      intro res s calls r s2 c2 h
      simp only [cleanGo] at h
      rcases hd : deleteItem env s l with ⟨o, s3⟩
      rw [hd] at h
      cases o with
      | ok =>
          dsimp only at h
          obtain ⟨tr, hc, hmap, htot, hdel, hfail, herr, hsize, hshape⟩ := ih _ _ _ _ _ _ h
          refine ⟨(l, DOutcome.ok) :: tr, ?_, ?_, ?_, ?_, ?_, ?_, ?_, ?_⟩
          · simp [hc]
          · simp [hmap]
          · simpa using htot
          · simp only [List.filter_cons] at *
            simp only [hdel]
            simp
            omega
          · simpa [failPairs] using hfail
          · simpa [failPairs] using herr
          · simp only [okSizes, List.filterMap_cons] at *
            simp only [hsize]
            simp
            omega
          · intro c hc2
            rcases List.mem_cons.mp hc2 with hc2 | hc2
            · left; rw [hc2]
            · exact hshape c hc2
      | fail msg =>
          dsimp only at h
          obtain ⟨tr, hc, hmap, htot, hdel, hfail, herr, hsize, hshape⟩ := ih _ _ _ _ _ _ h
          refine ⟨(l, DOutcome.fail msg) :: tr, ?_, ?_, ?_, ?_, ?_, ?_, ?_, ?_⟩
          · simp [hc]
          · simp [hmap]
          · simpa using htot
          · simpa using hdel
          · simp only [failPairs, List.filterMap_cons] at *
            simp only [hfail]
            simp
            omega
          · simp only [failPairs, List.filterMap_cons] at *
            simp only [herr]
            simp
          · simpa [okSizes] using hsize
          · intro c hc2
            rcases List.mem_cons.mp hc2 with hc2 | hc2
            · right; exact ⟨msg, by rw [hc2]⟩
            · exact hshape c hc2
      | loops => simp at h
      | outOfFuel => simp at h

theorem cleanGo_subState (env : RegEnv) :
    ∀ items res s calls, SubState (cleanGo env res s calls items).2.1 s := by
  intro items
  induction items with
  | nil =>
      intro res s calls
      simp only [cleanGo]
      exact subState_refl s
  | cons l ls ih =>
      intro res s calls
      simp only [cleanGo]
      rcases hd : deleteItem env s l with ⟨o, s3⟩
      have hsub : SubState s3 s := by
        have h1 := deleteItem_subState env s l
        rw [hd] at h1
        exact h1
      cases o with
      | ok => exact subState_trans (ih _ _ _) hsub
      | fail msg => exact subState_trans (ih _ _ _) hsub
      | loops => exact hsub
      | outOfFuel => exact hsub

theorem cleanGo_calls_extend (env : RegEnv) :
    ∀ items res s calls,
      ∃ tr, (cleanGo env res s calls items).2.2 = calls ++ tr ∧
        (tr.map Prod.fst) <+: items := by
  intro items
  induction items with
  | nil =>
      intro res s calls
      exact ⟨[], by simp [cleanGo], by simp⟩
  | cons l ls ih =>
      intro res s calls
      simp only [cleanGo]
      rcases hd : deleteItem env s l with ⟨o, s3⟩
      cases o with
      | ok =>
          obtain ⟨tr, h1, t, ht⟩ := ih _ s3 (calls ++ [(l, DOutcome.ok)])
          refine ⟨(l, DOutcome.ok) :: tr, ?_, t, ?_⟩
          · dsimp only
            rw [h1]
            simp
          · simp [ht]
      | fail msg =>
          obtain ⟨tr, h1, t, ht⟩ := ih _ s3 (calls ++ [(l, DOutcome.fail msg)])
          refine ⟨(l, DOutcome.fail msg) :: tr, ?_, t, ?_⟩
          · dsimp only
            rw [h1]
            simp
          · simp [ht]
      | loops => exact ⟨[(l, DOutcome.loops)], by simp, ls, by simp⟩
      | outOfFuel => exact ⟨[(l, DOutcome.outOfFuel)], by simp, ls, by simp⟩

theorem cleanGo_no_fail_settled (env : RegEnv) :
    ∀ items res s calls r s2 c2,
      cleanGo env res s calls items = (some r, s2, c2) →
      r.failed_items = res.failed_items →
      (∀ l, l ∈ items → knownType l) →
      (∀ l, l ∈ items → settled s2 l) := by
  intro items
  induction items with
  | nil =>
      intro res s calls r s2 c2 h hf hk l hl
      simp at hl
  | cons l0 ls ih =>
      intro res s calls r s2 c2 h hf hk l hl
      simp only [cleanGo] at h
      rcases hd : deleteItem env s l0 with ⟨o, s3⟩
      rw [hd] at h
      cases o with
      | ok =>
          dsimp only at h
          rcases List.mem_cons.mp hl with hl0 | hl0
          · subst hl0
            have hst : settled s3 l := deleteItem_ok_settled env s s3 l (hk l (by simp)) hd
            have hsub : SubState s2 s3 := by
              have h1 := cleanGo_subState env ls
                { res with deleted_items := res.deleted_items + 1,
                           size_freed := res.size_freed + sizeVal l }
                s3 (calls ++ [(l, DOutcome.ok)])
              rw [h] at h1
              exact h1
            exact settled_mono hsub hst
          · exact ih _ _ _ _ _ _ h hf (fun x hx => hk x (List.mem_cons_of_mem _ hx)) l hl0
      | fail msg =>
          dsimp only at h
          exfalso
          obtain ⟨tr, -, -, -, -, hfail, -, -, -⟩ := cleanGo_complete env _ _ _ _ _ _ _ h
          simp only at hfail
          omega
      | loops => simp at h
      | outOfFuel => simp at h

theorem cleanGo_all_settled (env : RegEnv) :
    ∀ items res s calls,
      (∀ l, l ∈ items → knownType l) → (∀ l, l ∈ items → settled s l) →
      cleanGo env res s calls items =
        (some { res with
                  deleted_items := res.deleted_items + items.length,
                  size_freed := res.size_freed + (items.map sizeVal).sum },
         s, calls ++ items.map (fun l => (l, DOutcome.ok))) := by
  intro items
  induction items with
  | nil =>
      intro res s calls hk hs
      simp [cleanGo]
  | cons l0 ls ih =>
      intro res s calls hk hs
      have hd := settled_deleteItem_ok env s l0 (hk l0 (by simp)) (hs l0 (by simp))
      simp only [cleanGo, hd]
      rw [ih _ s _ (fun x hx => hk x (by simp [hx])) (fun x hx => hs x (by simp [hx]))]
      obtain ⟨t0, d0, f0, e0, z0⟩ := res
      simp only [List.length_cons, List.map_cons, List.sum_cons, Prod.mk.injEq,
        Option.some.injEq, CleanResult.mk.injEq, List.cons_append, List.append_assoc,
        List.singleton_append]
      refine ⟨⟨trivial, by omega, trivial, trivial, by omega⟩, trivial, by simp⟩

/-! ## Lemmas about the grouped processing order -/

theorem pairwise_of_mem_rel {α : Type} (R : α → α → Prop) :
    ∀ l : List α, (∀ a ∈ l, ∀ b ∈ l, R a b) → l.Pairwise R := by
  intro l
  induction l with
  | nil => intro _; exact List.Pairwise.nil
  | cons a as ih =>
      intro h
      refine List.Pairwise.cons (fun b hb => h a (by simp) b (by simp [hb])) (ih ?_)
      intro x hx y hy
      exact h x (by simp [hx]) y (by simp [hy])

theorem mem_filter_type {L : List Leftover} {t : String} {x : Leftover}
    (h : x ∈ L.filter (fun l => l.type == t)) : x.type = t := by
  simpa using (List.mem_filter.mp h).2

theorem groupOrdered_known (L : List Leftover) :
    ∀ l ∈ groupOrdered L, knownType l := by
  intro l hl
  simp only [groupOrdered, List.mem_append] at hl
  rcases hl with ((h | h) | h) | h
  · exact Or.inr (Or.inr (Or.inr (mem_filter_type h)))
  · exact Or.inl (mem_filter_type h)
  · exact Or.inr (Or.inl (mem_filter_type h))
  · exact Or.inr (Or.inr (Or.inl (mem_filter_type h)))

theorem groupOrdered_length_known (L : List Leftover)
    (h : ∀ l ∈ L, knownType l) : (groupOrdered L).length = L.length := by
  induction L with
  | nil => simp [groupOrdered]
  | cons l ls ih =>
      have hknown := h l (by simp)
      have ihl := ih (fun x hx => h x (by simp [hx]))
      simp only [groupOrdered, List.filter_cons, List.length_append] at *
      rcases hknown with ht | ht | ht | ht <;> simp [ht] <;> omega

theorem groupOrdered_pairwise (L : List Leftover) :
    (groupOrdered L).Pairwise (fun a b => rank a.type ≤ rank b.type) := by
  have hblock : ∀ t : String,
      (L.filter (fun l => l.type == t)).Pairwise
        (fun a b => rank a.type ≤ rank b.type) := by
    intro t
    refine pairwise_of_mem_rel _ _ (fun a ha b hb => ?_)
    rw [mem_filter_type ha, mem_filter_type hb]
  unfold groupOrdered
  rw [List.pairwise_append]
  refine ⟨?_, hblock "registry", ?_⟩
  · rw [List.pairwise_append]
    refine ⟨?_, hblock "directory", ?_⟩
    · rw [List.pairwise_append]
      refine ⟨hblock "shortcut", hblock "file", ?_⟩
      intro a ha b hb
      rw [mem_filter_type ha, mem_filter_type hb]
      decide
    · intro a ha b hb
      rcases List.mem_append.mp ha with ha | ha <;>
        rw [mem_filter_type ha, mem_filter_type hb] <;> decide
  · intro a ha b hb
    rcases List.mem_append.mp ha with ha | ha
    · rcases List.mem_append.mp ha with ha | ha <;>
        rw [mem_filter_type ha, mem_filter_type hb] <;> decide
    · rw [mem_filter_type ha, mem_filter_type hb]; decide

theorem trace_ok_fail_count (tr : List (Leftover × DOutcome))
    (h : ∀ c ∈ tr, c.2 = DOutcome.ok ∨ ∃ m, c.2 = DOutcome.fail m) :
    (tr.filter (fun c => c.2 == DOutcome.ok)).length + (failPairs tr).length =
      tr.length := by
  induction tr with
  | nil => simp [failPairs]
  | cons c cs ih =>
      have hc := h c (by simp)
      have hrest := ih (fun x hx => h x (by simp [hx]))
      rcases hc with hc | ⟨m, hc⟩ <;>
        · simp only [List.filter_cons, failPairs, List.filterMap_cons, hc,
            List.length_cons] at *
          simp
          omega

/-! ## Lemmas about the scanner loop -/

theorem scanList_append (pats : List String) (maxD curD : Nat) (parent : String)
    (xs ys : List FSEntry) :
    scanList pats maxD curD parent (xs ++ ys) =
      scanList pats maxD curD parent xs ++ scanList pats maxD curD parent ys := by
  induction xs with
  | nil => simp [scanList]
  | cons e es ih => simp [scanList, ih]

/-! ## Claim theorems -/

/-- C3.  Pattern generation on concrete inputs: a two-character name with no
publisher yields no pattern at all, and a name with an embedded version
number yields both the verbatim lowercase name and the version-stripped
variant. -/
theorem pattern_generation_concrete :
    generateSearchPatterns { name := "AB" } = [] ∧
    "mozilla firefox 121.0.1" ∈
      generateSearchPatterns { name := "Mozilla Firefox 121.0.1" } ∧
    "mozilla firefox" ∈
      generateSearchPatterns { name := "Mozilla Firefox 121.0.1" } := by
  refine ⟨by decide, by decide, by decide⟩

/-- C4.  Every hive alias of the fixed table parses `"<alias>\Software\X"`
to the hive constant it names paired with `"Software\X"`; in particular the
short and long names of HKEY_LOCAL_MACHINE parse identically. -/
theorem registry_hive_alias_parse :
    parseRegistryPath "HKEY_LOCAL_MACHINE\\Software\\X" =
      some (HKEY_LOCAL_MACHINE, "Software\\X") ∧
    parseRegistryPath "HKLM\\Software\\X" =
      some (HKEY_LOCAL_MACHINE, "Software\\X") ∧
    parseRegistryPath "HKEY_CURRENT_USER\\Software\\X" =
      some (HKEY_CURRENT_USER, "Software\\X") ∧
    parseRegistryPath "HKCU\\Software\\X" =
      some (HKEY_CURRENT_USER, "Software\\X") ∧
    parseRegistryPath "HKEY_CLASSES_ROOT\\Software\\X" =
      some (HKEY_CLASSES_ROOT, "Software\\X") ∧
    parseRegistryPath "HKCR\\Software\\X" =
      some (HKEY_CLASSES_ROOT, "Software\\X") ∧
    parseRegistryPath "HKEY_USERS\\Software\\X" =
      some (HKEY_USERS, "Software\\X") ∧
    parseRegistryPath "HKU\\Software\\X" =
      some (HKEY_USERS, "Software\\X") ∧
    parseRegistryPath "HKEY_CURRENT_CONFIG\\Software\\X" =
      some (HKEY_CURRENT_CONFIG, "Software\\X") ∧
    parseRegistryPath "HKCC\\Software\\X" =
      some (HKEY_CURRENT_CONFIG, "Software\\X") ∧
    parseRegistryPath "HKLM\\Software\\X" =
      parseRegistryPath "HKEY_LOCAL_MACHINE\\Software\\X" := by
  decide

/-- C6 counterexample.  A Directory leftover with a known size of 2048 bytes
renders without any size suffix: `__str__` only attaches the size to the
`file` branch, so the claim that every sized File or Directory entry carries
a size suffix fails on this input. -/
theorem leftoverStr_directory_size_missing :
    leftoverStr dirItemX = "[Dir]  C:\\X" ∧
    leftoverStr dirItemX ≠ "[Dir]  C:\\X (" ++ formatSize 2048 ++ ")" := by
  exact ⟨by decide, by decide⟩

/-- C6 as amended.  Rendering shape of `Leftover.__str__`: the four tags are
exactly `[File]`, `[Dir]`, `[Reg]`, `[Link]`, each followed by the path, and
only a File leftover with a nonzero known size carries the human-readable
size suffix; Directory, Registry and Shortcut leftovers render with no size
suffix. -/
theorem leftoverStr_shape (l : Leftover) :
    (l.type = "file" → ∀ n, l.size = some n → n ≠ 0 →
      leftoverStr l = "[File] " ++ l.path ++ " (" ++ formatSize n ++ ")") ∧
    (l.type = "file" → l.size = none ∨ l.size = some 0 →
      leftoverStr l = "[File] " ++ l.path) ∧
    (l.type = "directory" → leftoverStr l = "[Dir]  " ++ l.path) ∧
    (l.type = "registry" → leftoverStr l = "[Reg]  " ++ l.path) ∧
    (l.type = "shortcut" → leftoverStr l = "[Link] " ++ l.path) := by
  refine ⟨?_, ?_, ?_, ?_, ?_⟩
  · intro ht n hn hnz
    simp [leftoverStr, ht, hn, hnz, String.append_assoc]
  · intro ht hs
    rcases hs with hs | hs <;> simp [leftoverStr, ht, hs]
  · intro ht
    simp [leftoverStr, ht]
  · intro ht
    simp [leftoverStr, ht]
  · intro ht
    simp [leftoverStr, ht]

/-- Witness for the amended C6, at a File leftover of 2048 bytes. -/
theorem leftoverStr_shape_witness :
    leftoverStr fileItemY = "[File] " ++ "C:\\a" ++ " (" ++ formatSize 2048 ++ ")" :=
  (leftoverStr_shape fileItemY).1 rfl 2048 rfl (by decide)

/-- C8 (evaluation at the failing input).  A registry key that exists and
opens, whose only subkey can never be deleted under any access view: the
subkey loop of `_delete_registry_key_recursive` re-enumerates index 0
forever, so `clean` never returns — the model yields the `loops` marker and
no `CleanResult`, instead of the claimed single "Could not delete registry
key" failure entry. -/
theorem clean_registry_failing_subkey_loops :
    clean envNoRegDelete stateWithStuckKey [regItemX] =
      (none, stateWithStuckKey, [(regItemX, DOutcome.loops)]) := by
  decide

/-- C1 counterexample.  One file leftover that exists: the first `clean`
removes it; the second `clean` finds it absent, which `_delete_file` reports
as success, so the second result has `deleted_items = 1`, not the `0` the
claim requires. -/
theorem clean_twice_deleted_items_not_zero :
    clean envAllOk ⟨["C:\\Temp\\app.txt"], []⟩ [fileItemX] =
      (some ⟨1, 1, 0, [], 10⟩, ⟨[], []⟩, [(fileItemX, DOutcome.ok)]) ∧
    clean envAllOk ⟨[], []⟩ [fileItemX] =
      (some ⟨1, 1, 0, [], 10⟩, ⟨[], []⟩, [(fileItemX, DOutcome.ok)]) ∧
    (clean envAllOk ⟨[], []⟩ [fileItemX]).1 ≠ some ⟨1, 0, 0, [], 0⟩ := by
  refine ⟨by decide, by decide, by decide⟩

/-- C7 counterexample.  A successfully deleted Shortcut leftover whose
`size` field is set contributes its size to `size_freed`: the accumulation
in `clean` tests only `leftover.size`, never the kind, so the claim that
Registry and Shortcut items contribute nothing fails on this input. -/
theorem size_freed_counts_shortcut :
    clean envAllOk ⟨[], []⟩ [linkItemX] =
      (some ⟨1, 1, 0, [], 7⟩, ⟨[], []⟩, [(linkItemX, DOutcome.ok)]) ∧
    (7 : Nat) ≠ 0 := by
  exact ⟨by decide, by decide⟩

/-- C1 as amended.  If a first `clean` over `L` completes with no failures,
a second `clean` over the same list completes with `failed_items = 0`,
leaves the state untouched (no actual deletion happens), and counts every
known-kind item as deleted: `_delete_file`, `_delete_directory` and the
registry probe all report an already-absent item as success, so
`deleted_items` equals the number of processed items rather than zero. -/
theorem clean_second_run_reports_all_deleted
    (env : RegEnv) (s : SysState) (L : List Leftover) (r1 : CleanResult)
    (s1 : SysState) (t1 : List (Leftover × DOutcome))
    (h1 : clean env s L = (some r1, s1, t1)) (hf : r1.failed_items = 0) :
    clean env s1 L =
      (some { total_items := L.length,
              deleted_items := (groupOrdered L).length, failed_items := 0,
              errors := [],
              size_freed := ((groupOrdered L).map sizeVal).sum },
       s1, (groupOrdered L).map (fun l => (l, DOutcome.ok))) := by
  have hsettled : ∀ l ∈ groupOrdered L, settled s1 l :=
    cleanGo_no_fail_settled env (groupOrdered L) ⟨L.length, 0, 0, [], 0⟩ s []
      r1 s1 t1 h1 hf (groupOrdered_known L)
  have h2 := cleanGo_all_settled env (groupOrdered L)
    ⟨L.length, 0, 0, [], 0⟩ s1 [] (groupOrdered_known L) hsettled
  simpa [clean] using h2

/-- Witness for the amended C1: a file leftover deleted by a first run is
counted as deleted again (and as no failure) by the second run. -/
theorem clean_second_run_reports_all_deleted_witness :
    clean envAllOk ⟨[], []⟩ [fileItemX] =
      (some { total_items := [fileItemX].length,
              deleted_items := (groupOrdered [fileItemX]).length,
              failed_items := 0, errors := [],
              size_freed := ((groupOrdered [fileItemX]).map sizeVal).sum },
       ⟨[], []⟩, (groupOrdered [fileItemX]).map (fun l => (l, DOutcome.ok))) :=
  clean_second_run_reports_all_deleted envAllOk ⟨["C:\\Temp\\app.txt"], []⟩
    [fileItemX] ⟨1, 1, 0, [], 10⟩ ⟨[], []⟩ [(fileItemX, DOutcome.ok)]
    (by decide) (by decide)

/-- C5.  Deletion ordering: along the trace of delete-strategy calls issued
by `clean` (even a trace cut short by a never-returning registry deletion),
the kind ranks are monotone, so every Shortcut call precedes every File
call, every File call precedes every Directory call, and every Directory
call precedes every Registry call. -/
theorem clean_deletion_ordering (env : RegEnv) (s : SysState) (L : List Leftover) :
    (clean env s L).2.2.Pairwise (fun a b => rank a.1.type ≤ rank b.1.type) := by
  obtain ⟨tr, htr, hpre⟩ :=
    cleanGo_calls_extend env (groupOrdered L) ⟨L.length, 0, 0, [], 0⟩ s []
  have h2 : (clean env s L).2.2 = tr := by simpa [clean] using htr
  rw [h2]
  have hgp : (tr.map Prod.fst).Pairwise (fun a b => rank a.type ≤ rank b.type) :=
    (groupOrdered_pairwise L).sublist hpre.sublist
  simpa [Function.onFun] using List.pairwise_map.mp hgp

/-- C7 as amended.  `size_freed` of a completed `clean` is the sum of the
recorded sizes of all successfully deleted leftovers, whatever their kind:
the accumulation tests only the truthiness of `leftover.size`. -/
theorem size_freed_sum_over_deleted
    (env : RegEnv) (s : SysState) (L : List Leftover) (r : CleanResult)
    (s2 : SysState) (tr : List (Leftover × DOutcome))
    (h : clean env s L = (some r, s2, tr)) :
    r.size_freed = okSizes tr := by
  obtain ⟨tr2, htr, -, -, -, -, -, hsize, -⟩ :=
    cleanGo_complete env (groupOrdered L) ⟨L.length, 0, 0, [], 0⟩ s [] r s2 tr h
  have he : tr = tr2 := by simpa using htr
  subst he
  simpa using hsize

/-- Witness for the amended C7 at a one-file run. -/
theorem size_freed_sum_over_deleted_witness :
    (⟨1, 1, 0, [], 10⟩ : CleanResult).size_freed =
      okSizes [(fileItemX, DOutcome.ok)] :=
  size_freed_sum_over_deleted envAllOk ⟨["C:\\Temp\\app.txt"], []⟩ [fileItemX]
    ⟨1, 1, 0, [], 10⟩ ⟨[], []⟩ [(fileItemX, DOutcome.ok)] (by decide)

/-- C9.  Unknown kinds are silently skipped: a completed `clean` counts every
input item in `total_items`, but `deleted_items + failed_items` only reaches
the number of items of the four known kinds (the grouped order), the errors
list matches `failed_items`, and every delete-strategy call issued is for a
known kind — the "Unknown leftover type" branch of `_delete_item` is
unreachable through `clean`. -/
theorem clean_unknown_type_skipped
    (env : RegEnv) (s : SysState) (L : List Leftover) (r : CleanResult)
    (s2 : SysState) (tr : List (Leftover × DOutcome))
    (h : clean env s L = (some r, s2, tr)) :
    r.total_items = L.length ∧
    r.deleted_items + r.failed_items = (groupOrdered L).length ∧
    r.errors.length = r.failed_items ∧
    ∀ c ∈ tr, knownType c.1 := by
  obtain ⟨tr2, htr, hmap, htot, hdel, hfail, herr, hsize, hshape⟩ :=
    cleanGo_complete env (groupOrdered L) ⟨L.length, 0, 0, [], 0⟩ s [] r s2 tr h
  have he : tr = tr2 := by simpa using htr
  subst he
  have hcount := trace_ok_fail_count tr hshape
  have hlen : tr.length = (groupOrdered L).length := by
    rw [← hmap]
    simp
  refine ⟨by simpa using htot, ?_, ?_, ?_⟩
  · simp only at hdel hfail
    omega
  · have herr2 : r.errors = failPairs tr := by simpa using herr
    rw [herr2]
    simp only at hfail
    omega
  · intro c hc
    refine groupOrdered_known L c.1 ?_
    rw [← hmap]
    exact List.mem_map_of_mem _ hc

/-- Witness for C9: a single `service`-kind leftover is counted in the total
but never dispatched. -/
theorem clean_unknown_type_skipped_witness :
    (⟨1, 0, 0, [], 0⟩ : CleanResult).total_items = [serviceItemX].length ∧
    (⟨1, 0, 0, [], 0⟩ : CleanResult).deleted_items +
        (⟨1, 0, 0, [], 0⟩ : CleanResult).failed_items =
      (groupOrdered [serviceItemX]).length ∧
    (⟨1, 0, 0, [], 0⟩ : CleanResult).errors.length =
      (⟨1, 0, 0, [], 0⟩ : CleanResult).failed_items ∧
    ∀ c ∈ ([] : List (Leftover × DOutcome)), knownType c.1 :=
  clean_unknown_type_skipped envAllOk ⟨[], []⟩ [serviceItemX]
    ⟨1, 0, 0, [], 0⟩ ⟨[], []⟩ [] (by decide)

/-- C10.  Accounting invariant of a completed `clean` over known kinds only:
`total_items` is the input length, every item is either deleted or failed,
and the errors list is exactly the ordered `(path, message)` pairs of the
failed calls — one entry per failed item. -/
theorem clean_accounting_invariant
    (env : RegEnv) (s : SysState) (L : List Leftover) (r : CleanResult)
    (s2 : SysState) (tr : List (Leftover × DOutcome))
    (hk : ∀ l ∈ L, knownType l)
    (h : clean env s L = (some r, s2, tr)) :
    r.total_items = L.length ∧
    r.deleted_items + r.failed_items = r.total_items ∧
    r.errors = failPairs tr ∧
    r.errors.length = r.failed_items := by
  obtain ⟨tr2, htr, hmap, htot, hdel, hfail, herr, hsize, hshape⟩ :=
    cleanGo_complete env (groupOrdered L) ⟨L.length, 0, 0, [], 0⟩ s [] r s2 tr h
  have he : tr = tr2 := by simpa using htr
  subst he
  have hcount := trace_ok_fail_count tr hshape
  have hlen : tr.length = (groupOrdered L).length := by
    rw [← hmap]
    simp
  have hglen := groupOrdered_length_known L hk
  have herr2 : r.errors = failPairs tr := by simpa using herr
  refine ⟨by simpa using htot, ?_, herr2, ?_⟩
  · simp only at hdel hfail htot
    omega
  · rw [herr2]
    simp only at hfail
    omega

/-- Witness for C10 at a one-file run with no failures. -/
theorem clean_accounting_invariant_witness :
    (⟨1, 1, 0, [], 10⟩ : CleanResult).total_items = [fileItemX].length ∧
    (⟨1, 1, 0, [], 10⟩ : CleanResult).deleted_items +
        (⟨1, 1, 0, [], 10⟩ : CleanResult).failed_items =
      (⟨1, 1, 0, [], 10⟩ : CleanResult).total_items ∧
    (⟨1, 1, 0, [], 10⟩ : CleanResult).errors =
      failPairs [(fileItemX, DOutcome.ok)] ∧
    (⟨1, 1, 0, [], 10⟩ : CleanResult).errors.length =
      (⟨1, 1, 0, [], 10⟩ : CleanResult).failed_items :=
  clean_accounting_invariant envAllOk ⟨["C:\\Temp\\app.txt"], []⟩ [fileItemX]
    ⟨1, 1, 0, [], 10⟩ ⟨[], []⟩ [(fileItemX, DOutcome.ok)]
    (by intro l hl; rw [List.mem_singleton.mp hl]; exact Or.inl rfl)
    (by decide)

/-- C2.  Atomic match stops recursion: inside the loop of
`_scan_directory`, a directory entry whose lowercase name contains one of
the (non-empty) patterns contributes exactly one Directory leftover — with
the full subtree size and item count — and nothing at all for any entry
beneath it, whatever the children look like and whether or not their names
also match. -/
theorem scanner_atomic_match_stops_recursion
    (pats : List String) (maxD curD : Nat) (parent name : String)
    (cs es1 es2 : List FSEntry)
    (_hne : pats ≠ []) (_hdepth : curD ≤ maxD)
    (hmatch : (pats.any fun p => strContains (toLowerStr name) p) = true) :
    scanList pats maxD curD parent (es1 ++ FSEntry.dir name cs :: es2) =
      scanList pats maxD curD parent es1 ++
        [{ type := "directory", path := parent ++ "\\" ++ name,
           size := some (sizeSum cs), lastModified := none,
           description :=
             some ("Directory with " ++ toString (countSum cs) ++ " items") }] ++
        scanList pats maxD curD parent es2 := by
  rw [scanList_append]
  have hentry : scanEntry pats maxD curD parent (FSEntry.dir name cs) =
      [{ type := "directory", path := parent ++ "\\" ++ name,
         size := some (sizeSum cs), lastModified := none,
         description :=
           some ("Directory with " ++ toString (countSum cs) ++ " items") }] := by
    simp [scanEntry, hmatch]
  simp [scanList, hentry]

/-- Witness for C2: a directory whose name matches, containing one matching
and one non-matching child, contributes exactly its own Directory record. -/
theorem scanner_atomic_match_stops_recursion_witness :
    scanList ["app"] 2 0 "C:\\Program Files"
        ([FSEntry.file "other.txt" 3 0] ++
          FSEntry.dir "MyApp"
              [FSEntry.file "MyApp.exe" 100 0, FSEntry.file "readme.txt" 5 0] ::
            []) =
      scanList ["app"] 2 0 "C:\\Program Files" [FSEntry.file "other.txt" 3 0] ++
        [{ type := "directory", path := "C:\\Program Files" ++ "\\" ++ "MyApp",
           size := some (sizeSum
             [FSEntry.file "MyApp.exe" 100 0, FSEntry.file "readme.txt" 5 0]),
           lastModified := none,
           description := some ("Directory with " ++
             toString (countSum
               [FSEntry.file "MyApp.exe" 100 0, FSEntry.file "readme.txt" 5 0]) ++
             " items") }] ++
        scanList ["app"] 2 0 "C:\\Program Files" [] :=
  scanner_atomic_match_stops_recursion ["app"] 2 0 "C:\\Program Files" "MyApp"
    [FSEntry.file "MyApp.exe" 100 0, FSEntry.file "readme.txt" 5 0]
    [FSEntry.file "other.txt" 3 0] [] (by decide) (by decide) (by decide)
